import Mathlib

/-!
Verification of socketroulette: pairing table, accept-and-match, relay and teardown

A shallow embedding of `socketroulette.c`.

* The C globals `clients`, `client_waiting` and `listener` are fields of `State`.
  `clients` is an array of `MAX_CLIENTS` ints; an access at an index outside
  `0 .. MAX_CLIENTS - 1` is undefined behaviour in C and is a `Fault.out_of_bounds`
  here.
* The kernel is modelled by what the program can observe of it: the interest list
  of the epoll instance (`State.interest`) and the ordered log of the system calls
  the program issued (`State.trace`).
* What the kernel answers is an input of each function: the descriptor returned by
  `accept4`, the result of `recv`, and the list of the return values of the
  successive `send` calls.
* Diagnostics (`warn`, `warnx`, `printf`) and `inet_ntop` have no effect on the
  table, the waiting slot or the sockets and are left out.
-/

namespace SocketRoulette

/-- The table capacity, `#define MAX_CLIENTS 1024`. -/
def MAX_CLIENTS : Int := 1024

/-- One byte of a `char buf[1024]`. -/
abbrev Byte := Fin 256

/-- The `how` argument of `shutdown`. -/
inductive How where
  | SHUT_RD
  | SHUT_WR
  | SHUT_RDWR
  deriving DecidableEq, Repr

/-- The operation of an `epoll_ctl` call. -/
inductive CtlOp where
  | EPOLL_CTL_ADD
  | EPOLL_CTL_DEL
  deriving DecidableEq, Repr

/-- A system call issued by the program. `send fd offered ret` is the call
`send(fd, buf + sv, len - sv, 0)` with `offered` the bytes `buf[sv .. len)` and `ret`
its return value. -/
inductive Syscall where
  | accept4 (ret : Int)
  | recv (fd : Int)
  | send (fd : Int) (offered : List Byte) (ret : Int)
  | shutdown (fd : Int) (how : How)
  | epoll_ctl (op : CtlOp) (fd : Int)
  deriving DecidableEq, Repr

/-- What `recv(fd, buf, sizeof buf, 0)` gave: `fail` is a negative return value, with
`eagain` telling whether `errno == EAGAIN`; `bytes buf` is the return value
`buf.length` (zero at end of file) with the bytes stored in the buffer. -/
inductive RecvResult where
  | fail (eagain : Bool)
  | bytes (buf : List Byte)
  deriving DecidableEq, Repr

/-- Why a run of the model has no result. -/
inductive Fault where
  /-- An access `clients[index]` outside the array: undefined behaviour. -/
  | out_of_bounds (index : Int)
  /-- The send loop asked for one more `send` result than the environment supplied. -/
  | starved
  deriving DecidableEq, Repr

/-- The program's globals together with the observable part of the kernel. -/
structure State where
  /-- The array `int clients[MAX_CLIENTS]`, meaningful at `0 .. MAX_CLIENTS - 1`. -/
  clients : Int → Int
  /-- The global `int client_waiting`. -/
  client_waiting : Int
  /-- The global `int listener`. -/
  listener : Int
  /-- The interest list of the epoll instance. -/
  interest : Int → Bool
  /-- The system calls issued so far, oldest first. -/
  trace : List Syscall

/-- An index of the array `clients`. -/
def InBounds (i : Int) : Prop := 0 ≤ i ∧ i < MAX_CLIENTS

instance (i : Int) : Decidable (InBounds i) := by
  unfold InBounds; exact inferInstance

/-- Record a system call. -/
def State.sys (s : State) (c : Syscall) : State :=
  { s with trace := s.trace ++ [c] }

/-- The read `clients[i]`. -/
def State.load (s : State) (i : Int) : Except Fault Int :=
  if InBounds i then .ok (s.clients i) else .error (.out_of_bounds i)

/-- The write `clients[i] = v`. -/
def State.store (s : State) (i v : Int) : Except Fault State :=
  if InBounds i then
    .ok { s with clients := fun j => if j = i then v else s.clients j }
  else .error (.out_of_bounds i)

/-- The function `add_fd_to_epoll`: `epoll_ctl(epoll, EPOLL_CTL_ADD, fd, &event)`, which fails
(return value -1) when `fd` is already in the interest list. -/
def add_fd_to_epoll (s : State) (fd : Int) : Int × State :=
  let s1 := s.sys (.epoll_ctl .EPOLL_CTL_ADD fd)
  if s.interest fd then (-1, s1)
  else (0, { s1 with interest := fun j => if j = fd then true else s.interest j })

/-- The function `remove_fd_from_epoll`: `epoll_ctl(epoll, EPOLL_CTL_DEL, fd, &event)`, which fails
(return value -1) when `fd` is not in the interest list. -/
def remove_fd_from_epoll (s : State) (fd : Int) : Int × State :=
  let s1 := s.sys (.epoll_ctl .EPOLL_CTL_DEL fd)
  if s.interest fd then
    (0, { s1 with interest := fun j => if j = fd then false else s.interest j })
  else (-1, s1)

/-- The loop `while (sv < len) { bytes = send(peer, buf + sv, len - sv, 0); ... }` of
`read_client`, with `len = buf.length`. Each iteration takes the return value of its
`send` from the head of the list. A negative value clears both table entries,
removes both descriptors from the interest list, shuts down the write side of `peer`
and the read side of `fd`, and leaves the loop. -/
def send_loop (fd peer : Int) (buf : List Byte) :
    State → Nat → List Int → Except Fault State
  | s, sv, [] => if sv < buf.length then .error .starved else .ok s
  | s, sv, bytes :: rest =>
    if sv < buf.length then
      let s := s.sys (.send peer (buf.drop sv) bytes)
      if bytes < 0 then do
        let s ← s.store peer (-1)
        let s ← s.store fd (-1)
        let s := (remove_fd_from_epoll s fd).2
        let s := (remove_fd_from_epoll s peer).2
        let s := s.sys (.shutdown peer .SHUT_WR)
        let s := s.sys (.shutdown fd .SHUT_RD)
        .ok s
      else send_loop fd peer buf s (sv + bytes.toNat) rest
    else .ok s

/-- The function `read_client(fd)`, given the result `r` of its `recv` and the return values
`sends` of its `send` calls. The result is the return value and the new state. -/
def read_client (s : State) (fd : Int) (r : RecvResult) (sends : List Int) :
    Except Fault (Int × State) := do
  let peer ← s.load fd
  let s := s.sys (.recv fd)
  match r with
  | .fail _ => .ok (-1, s)
  | .bytes buf =>
    if buf.length = 0 then
      let s := (remove_fd_from_epoll s fd).2
      if peer > -1 then do
        let s := s.sys (.shutdown peer .SHUT_RDWR)
        let s ← s.store fd (-1)
        let s ← s.store peer (-1)
        let s := (remove_fd_from_epoll s peer).2
        .ok (0, s)
      else .ok (0, s)
    else if peer = -1 then .ok (0, s)
    else do
      let s ← send_loop fd peer buf s 0 sends
      .ok (0, s)

/-- The function `accept_connection()`, given the return value `fd` of `accept4` and, for the
flush read on the waiting descriptor, the result of its `recv` and of its `send`
calls. The result is the return value and the new state. -/
def accept_connection (s : State) (fd : Int) (flush : RecvResult) (sends : List Int) :
    Except Fault (Int × State) :=
  let s := s.sys (.accept4 fd)
  if fd < 0 then .ok (-1, s)
  else if fd > MAX_CLIENTS then
    let s := s.sys (.shutdown fd .SHUT_RDWR)
    .ok (-1, s)
  else if s.client_waiting ≥ 0 then do
    let s ← s.store s.client_waiting fd
    let s ← s.store fd s.client_waiting
    let s := (add_fd_to_epoll s s.client_waiting).2
    let s := (add_fd_to_epoll s fd).2
    let (_, s) ← read_client s s.client_waiting flush sends
    .ok (0, { s with client_waiting := -1 })
  else do
    let s := { s with client_waiting := fd }
    let s ← s.store fd (-1)
    .ok (0, s)

/-- One iteration of the inner loop of `main`: the event reported by `epoll_wait`
carries the descriptor `ev_fd`; the listener's event runs `accept_connection`, any
other runs `read_client(ev_fd)`. -/
def handle_event (s : State) (ev_fd accepted : Int) (r : RecvResult) (sends : List Int) :
    Except Fault State :=
  if ev_fd = s.listener then (accept_connection s accepted r sends).map Prod.snd
  else (read_client s ev_fd r sends).map Prod.snd

/-- The state on entry to the event loop of `main`: the global array is
zero-initialised, `client_waiting` is -1, and the listener alone has been added to
the interest list. -/
def init (listener : Int) : State :=
  { clients := fun _ => 0
    client_waiting := -1
    listener := listener
    interest := fun j => decide (j = listener)
    trace := [] }

/-- The bytes the kernel took from a `send` to `peer`: the first `ret` bytes offered. -/
def accepted (peer : Int) : Syscall → List Byte
  | .send fd offered ret => if fd = peer ∧ 0 ≤ ret then offered.take ret.toNat else []
  | _ => []

/-- The bytes delivered to `peer` by a sequence of system calls, in order. -/
def delivered (peer : Int) (t : List Syscall) : List Byte :=
  (t.map (accepted peer)).flatten

/-- The descriptor a system call acts on (for `accept4`, the one it returned). -/
def Syscall.target : Syscall → Int
  | .accept4 ret => ret
  | .recv fd => fd
  | .send fd _ _ => fd
  | .shutdown fd _ => fd
  | .epoll_ctl _ fd => fd

/-- The `send` results supplied for a read are enough for its send loop: one of them
is a failure, or none is and together they cover the whole chunk. -/
def Supplied (r : RecvResult) (sends : List Int) : Prop :=
  match r with
  | .fail _ => True
  | .bytes buf =>
    (∃ x ∈ sends, x < 0) ∨ ((∀ x ∈ sends, 0 ≤ x) ∧ (buf.length : Int) ≤ sends.sum)

/-- The descriptor returned by `accept4` is one the program is not tracking: it is
not the waiting one and it is not in the interest list (which holds the listener and
the paired descriptors). -/
def Fresh (s : State) (fd : Int) : Prop :=
  fd ≠ s.client_waiting ∧ s.interest fd = false

/-- The states of the event loop: the state on entry, and every state obtained from
a reachable one by handling one event to completion. The event is for a descriptor
in the interest list, and a descriptor that `accept4` returns is fresh. -/
inductive Reachable (listener : Int) : State → Prop where
  | entry : Reachable listener (init listener)
  | step {s s1 : State} (ev_fd accepted : Int) (r : RecvResult) (sends : List Int) :
      Reachable listener s →
      s.interest ev_fd = true →
      (ev_fd = s.listener → 0 ≤ accepted → Fresh s accepted) →
      handle_event s ev_fd accepted r sends = .ok s1 →
      Reachable listener s1

/-- Entry `a` names a peer other than `a` and the listener, the peer is in the
interest list, and the peer's entry names `a`. -/
def Sym (s : State) (a : Int) : Prop :=
  0 ≤ s.clients a ∧ s.clients a ≠ a ∧ s.interest (s.clients a) = true ∧
    s.clients a ≠ s.listener ∧ s.clients (s.clients a) = a

/-- The part of the loop invariant that `read_client` preserves on its own: the
listener is in the interest list, every other descriptor in the list is paired
symmetrically, and every other entry is -1 or still zero. -/
def Core (s : State) : Prop :=
  s.interest s.listener = true ∧
    (∀ a, s.interest a = true → a ≠ s.listener → Sym s a) ∧
    (∀ a, s.interest a = false ∨ a = s.listener → s.clients a = -1 ∨ s.clients a = 0)

/-- The loop invariant: `Core`, and the waiting slot is empty or holds a non-negative
descriptor that is not in the interest list and whose entry is -1. -/
def Inv (s : State) : Prop :=
  Core s ∧
    (s.client_waiting = -1 ∨
      (0 ≤ s.client_waiting ∧ s.interest s.client_waiting = false ∧
        s.clients s.client_waiting = -1))

/-- The handles the program tracks: the one in the waiting slot when the slot is
occupied (`client_waiting >= 0`), and those in the interest list other than the
listener. Every handle that `accept_connection` admitted and that was not torn down
since is one of them. -/
def Tracked (s : State) (a : Int) : Prop :=
  (0 ≤ s.client_waiting ∧ a = s.client_waiting) ∨ (s.interest a = true ∧ a ≠ s.listener)

/-- A table with handles 5 and 6 paired with each other and every other entry -1. -/
def pair56 : State :=
  { clients := fun j => if j = 5 then 6 else if j = 6 then 5 else -1
    client_waiting := -1
    listener := 4
    interest := fun j => decide (j = 4 ∨ j = 5 ∨ j = 6)
    trace := [] }

/-- Two pairs, 5 with 6 and 7 with 8, every other entry -1. -/
def two_pairs : State :=
  { clients := fun j =>
      if j = 5 then 6 else if j = 6 then 5 else if j = 7 then 8 else if j = 8 then 7 else -1
    client_waiting := -1
    listener := 4
    interest := fun j => decide (j = 4 ∨ j = 5 ∨ j = 6 ∨ j = 7 ∨ j = 8)
    trace := [] }

/-- Handle 5 waiting alone. -/
def wait5 : State :=
  { clients := fun j => if j = 5 then -1 else 0
    client_waiting := 5
    listener := 4
    interest := fun j => decide (j = 4)
    trace := [] }

/-- The state after the loop, entered with listener 4, has accepted handle 5. -/
def after5 : State :=
  { clients := fun j => if j = 5 then -1 else 0
    client_waiting := 5
    listener := 4
    interest := fun j => decide (j = 4)
    trace := [.accept4 5] }

/-- The state after it has then accepted handle 6, the flush read on 5 finding
nothing to read: the table and the interest list as `accept_connection` leaves
them. -/
def after56 : State :=
  { clients := fun j => if j = 6 then 5 else if j = 5 then 6 else if j = 5 then -1 else 0
    client_waiting := -1
    listener := 4
    interest := fun j => if j = 6 then true else if j = 5 then true else decide (j = 4)
    trace := [.accept4 5, .accept4 6, .epoll_ctl .EPOLL_CTL_ADD 5,
      .epoll_ctl .EPOLL_CTL_ADD 6, .recv 5] }

section Basic
variable (s : State) (fd v c : Int) (x : Syscall)

@[simp] theorem sys_clients : (s.sys x).clients = s.clients := rfl
@[simp] theorem sys_client_waiting : (s.sys x).client_waiting = s.client_waiting := rfl
@[simp] theorem sys_listener : (s.sys x).listener = s.listener := rfl
@[simp] theorem sys_interest : (s.sys x).interest = s.interest := rfl
@[simp] theorem sys_trace : (s.sys x).trace = s.trace ++ [x] := rfl

@[simp] theorem remove_clients : (remove_fd_from_epoll s fd).2.clients = s.clients := by
  unfold remove_fd_from_epoll; split <;> rfl
@[simp] theorem remove_client_waiting :
    (remove_fd_from_epoll s fd).2.client_waiting = s.client_waiting := by
  unfold remove_fd_from_epoll; split <;> rfl
@[simp] theorem remove_listener : (remove_fd_from_epoll s fd).2.listener = s.listener := by
  unfold remove_fd_from_epoll; split <;> rfl
@[simp] theorem remove_trace :
    (remove_fd_from_epoll s fd).2.trace = s.trace ++ [.epoll_ctl .EPOLL_CTL_DEL fd] := by
  unfold remove_fd_from_epoll; split <;> rfl
@[simp] theorem remove_interest :
    (remove_fd_from_epoll s fd).2.interest c = if c = fd then false else s.interest c := by
  unfold remove_fd_from_epoll
  by_cases h : s.interest fd = true
  · simp [h]
  · by_cases hc : c = fd
    · subst hc; simp [h]
    · simp [h, hc]

@[simp] theorem add_clients : (add_fd_to_epoll s fd).2.clients = s.clients := by
  unfold add_fd_to_epoll; split <;> rfl
@[simp] theorem add_client_waiting :
    (add_fd_to_epoll s fd).2.client_waiting = s.client_waiting := by
  unfold add_fd_to_epoll; split <;> rfl
@[simp] theorem add_listener : (add_fd_to_epoll s fd).2.listener = s.listener := by
  unfold add_fd_to_epoll; split <;> rfl
@[simp] theorem add_trace :
    (add_fd_to_epoll s fd).2.trace = s.trace ++ [.epoll_ctl .EPOLL_CTL_ADD fd] := by
  unfold add_fd_to_epoll; split <;> rfl
@[simp] theorem add_interest :
    (add_fd_to_epoll s fd).2.interest c = if c = fd then true else s.interest c := by
  unfold add_fd_to_epoll
  by_cases h : s.interest fd = true
  · by_cases hc : c = fd
    · subst hc; simp [h]
    · simp [h, hc]
  · simp [h]

theorem store_ok (h : InBounds fd) :
    s.store fd v = .ok { s with clients := fun j => if j = fd then v else s.clients j } := by
  simp [State.store, h]

theorem load_ok (h : InBounds fd) : s.load fd = .ok (s.clients fd) := by
  simp [State.load, h]

end Basic

theorem read_client_fail (s : State) (fd : Int) (e : Bool) (sends : List Int)
    (h : InBounds fd) :
    read_client s fd (.fail e) sends = .ok (-1, s.sys (.recv fd)) := by
  simp [read_client, load_ok, h, bind, Except.bind]

/-- End of file on `a` whose entry names `b`: `b` is shut down in both directions,
both entries are cleared and both descriptors leave the interest list. -/
theorem read_client_eof_peer (s : State) (a b : Int) (sends : List Int)
    (ha : InBounds a) (hb : InBounds b) (hab : s.clients a = b) :
    ∃ s', read_client s a (.bytes []) sends = .ok (0, s') ∧
      s'.clients a = -1 ∧ s'.clients b = -1 ∧
      s'.interest a = false ∧ s'.interest b = false ∧
      s'.trace = s.trace ++ [.recv a, .epoll_ctl .EPOLL_CTL_DEL a,
        .shutdown b .SHUT_RDWR, .epoll_ctl .EPOLL_CTL_DEL b] ∧
      (∀ c, c ≠ a → c ≠ b → s'.clients c = s.clients c ∧ s'.interest c = s.interest c) ∧
      s'.client_waiting = s.client_waiting := by
  have hb0 : b > -1 := by have := hb.1; omega
  subst hab
  simp [read_client, load_ok, store_ok, ha, hb, hb0, bind, Except.bind]
  intro c h1 h2
  simp [h1, h2]

theorem send_loop_success (fd peer : Int) (buf : List Byte) :
    ∀ (rs : List Int) (s : State) (sv : Nat) (rest : List Int),
      (∀ r ∈ rs, 1 ≤ r) → (sv : Int) + rs.sum = buf.length →
      ∃ t, send_loop fd peer buf s sv (rs ++ rest) = .ok { s with trace := s.trace ++ t } ∧
        (∀ c ∈ t, ∃ off r, c = Syscall.send peer off r) ∧
        delivered peer t = buf.drop sv ∧ t.length = rs.length := by
  intro rs
  induction rs with
  | nil =>
    intro s sv rest _ hsum
    have hsv : sv = buf.length := by simpa using hsum
    refine ⟨[], ?_, by simp, by simp [delivered, hsv], rfl⟩
    cases rest <;> simp [send_loop, hsv]
  | cons r rs ih =>
    intro s sv rest hpos hsum
    have hr : 1 ≤ r := hpos r (by simp)
    have hrs : ∀ x ∈ rs, 1 ≤ x := fun x hx => hpos x (by simp [hx])
    have hnn : 0 ≤ rs.sum := List.sum_nonneg (fun x hx => by have := hrs x hx; omega)
    simp only [List.sum_cons] at hsum
    have hlt : sv < buf.length := by omega
    have hneg : ¬ r < 0 := by omega
    have hsum2 : ((sv + r.toNat : Nat) : Int) + rs.sum = buf.length := by
      have : (r.toNat : Int) = r := Int.toNat_of_nonneg (by omega)
      push_cast; omega
    obtain ⟨t, ht, hall, hdel, hlen⟩ :=
      ih (s.sys (.send peer (buf.drop sv) r)) (sv + r.toNat) rest hrs hsum2
    refine ⟨Syscall.send peer (buf.drop sv) r :: t, ?_, ?_, ?_, by simp [hlen]⟩
    · simp only [List.cons_append, send_loop, hlt, hneg, if_true, if_false]
      exact ht.trans (by simp [State.sys])
    · intro c hc
      rcases List.mem_cons.1 hc with h | h
      · exact ⟨_, _, h⟩
      · exact hall c h
    · have h0 : 0 ≤ r := by omega
      simp only [delivered, List.map_cons, List.flatten_cons, accepted, h0, and_self, if_true]
      simp only [delivered] at hdel
      rw [hdel, ← List.drop_drop, List.take_append_drop]

theorem send_loop_fail_step (fd peer : Int) (buf : List Byte) (hfd : InBounds fd)
    (hpeer : InBounds peer) (s : State) (sv : Nat) (b : Int) (rest : List Int)
    (hlt : sv < buf.length) (hb : b < 0) :
    send_loop fd peer buf s sv (b :: rest) = .ok
      (((remove_fd_from_epoll (remove_fd_from_epoll
        { s.sys (.send peer (buf.drop sv) b) with
          clients := fun j => if j = fd then -1 else if j = peer then -1 else s.clients j }
        fd).2 peer).2.sys (.shutdown peer .SHUT_WR)).sys (.shutdown fd .SHUT_RD)) := by
  simp only [send_loop, hlt, hb, if_true, store_ok, hpeer, hfd, bind, Except.bind]
  rfl

theorem send_loop_failure (fd peer : Int) (buf : List Byte) (hfd : InBounds fd)
    (hpeer : InBounds peer) :
    ∀ (good : List Int) (s : State) (sv : Nat) (bad : Int) (rest : List Int),
      (∀ r ∈ good, 0 ≤ r) → (sv : Int) + good.sum < buf.length → bad < 0 →
      ∃ s1 t off, send_loop fd peer buf s sv (good ++ bad :: rest) = .ok s1 ∧
        t.length = good.length ∧
        (∀ c ∈ t, ∃ o r, c = Syscall.send peer o r) ∧
        s1.trace = s.trace ++ t ++ [.send peer off bad,
          .epoll_ctl .EPOLL_CTL_DEL fd, .epoll_ctl .EPOLL_CTL_DEL peer,
          .shutdown peer .SHUT_WR, .shutdown fd .SHUT_RD] ∧
        (∀ c, s1.clients c = if c = fd ∨ c = peer then -1 else s.clients c) ∧
        (∀ c, s1.interest c = if c = fd ∨ c = peer then false else s.interest c) ∧
        s1.client_waiting = s.client_waiting ∧ s1.listener = s.listener := by
  intro good
  induction good with
  | nil =>
    intro s sv bad rest _ hsum hbad
    have hlt : sv < buf.length := by simpa using hsum
    refine ⟨_, [], buf.drop sv,
      send_loop_fail_step fd peer buf hfd hpeer s sv bad rest hlt hbad, rfl, by simp,
      ?_, ?_, ?_, ?_, ?_⟩
    · simp
    · intro c; by_cases h1 : c = fd <;> by_cases h2 : c = peer <;> simp [h1, h2]
    · intro c; by_cases h1 : c = fd <;> by_cases h2 : c = peer <;> simp [h1, h2]
    · simp
    · simp
  | cons r good ih =>
    intro s sv bad rest hpos hsum hbad
    have hr : 0 ≤ r := hpos r (by simp)
    have hgood : ∀ x ∈ good, 0 ≤ x := fun x hx => hpos x (by simp [hx])
    have hnn : 0 ≤ good.sum := List.sum_nonneg hgood
    simp only [List.sum_cons] at hsum
    have hlt : sv < buf.length := by omega
    have hneg : ¬ r < 0 := by omega
    have hsum2 : ((sv + r.toNat : Nat) : Int) + good.sum < buf.length := by
      have : (r.toNat : Int) = r := Int.toNat_of_nonneg hr
      push_cast; omega
    obtain ⟨s1, t, off, ht, hlen, hall, htr, hcl, hint, hw, hl⟩ :=
      ih (s.sys (.send peer (buf.drop sv) r)) (sv + r.toNat) bad rest hgood hsum2 hbad
    refine ⟨s1, Syscall.send peer (buf.drop sv) r :: t, off, ?_, by simp [hlen], ?_, ?_,
      ?_, ?_, ?_, ?_⟩
    · simp only [List.cons_append, send_loop, hlt, hneg, if_true, if_false]
      exact ht
    · intro c hc
      rcases List.mem_cons.1 hc with h | h
      · exact ⟨_, _, h⟩
      · exact hall c h
    · rw [htr]; simp
    · intro c; rw [hcl c]; simp
    · intro c; rw [hint c]; simp
    · rw [hw]; simp
    · rw [hl]; simp

/-- What a completed send loop did to the state: nothing but `send` calls to `peer`,
or a teardown of `fd` and `peer` after them. -/
theorem send_loop_effect (fd peer : Int) (buf : List Byte) :
    ∀ (sends : List Int) (s : State) (sv : Nat) (s1 : State),
      send_loop fd peer buf s sv sends = .ok s1 →
      s1.client_waiting = s.client_waiting ∧ s1.listener = s.listener ∧
      ∃ t, (∀ c ∈ t, c.target = fd ∨ c.target = peer) ∧ s1.trace = s.trace ++ t ∧
        ((s1.clients = s.clients ∧ s1.interest = s.interest) ∨
         (InBounds fd ∧ InBounds peer ∧
          (∀ c, s1.clients c = if c = fd ∨ c = peer then -1 else s.clients c) ∧
          (∀ c, s1.interest c = if c = fd ∨ c = peer then false else s.interest c))) := by
  intro sends
  induction sends with
  | nil =>
    intro s sv s1 h
    by_cases hlt : sv < buf.length
    · simp [send_loop, hlt] at h
    · simp only [send_loop, hlt, if_false, Except.ok.injEq] at h
      subst h
      exact ⟨rfl, rfl, [], by simp, by simp, Or.inl ⟨rfl, rfl⟩⟩
  | cons b rest ih =>
    intro s sv s1 h
    by_cases hlt : sv < buf.length
    · by_cases hb : b < 0
      · by_cases hpeer : InBounds peer
        · by_cases hfd : InBounds fd
          · rw [send_loop_fail_step fd peer buf hfd hpeer s sv b rest hlt hb] at h
            simp only [Except.ok.injEq] at h
            subst h
            refine ⟨by simp, by simp, [.send peer (buf.drop sv) b,
              .epoll_ctl .EPOLL_CTL_DEL fd, .epoll_ctl .EPOLL_CTL_DEL peer,
              .shutdown peer .SHUT_WR, .shutdown fd .SHUT_RD], ?_, by simp, Or.inr ⟨hfd, hpeer, ?_, ?_⟩⟩
            · intro c hc
              simp only [List.mem_cons, List.mem_singleton, List.not_mem_nil, or_false] at hc
              rcases hc with h | h | h | h | h <;> subst h <;> simp [Syscall.target]
            · intro c; by_cases h1 : c = fd <;> by_cases h2 : c = peer <;> simp [h1, h2]
            · intro c; by_cases h1 : c = fd <;> by_cases h2 : c = peer <;> simp [h1, h2]
          · simp [send_loop, hlt, hb, store_ok, State.store, hpeer, hfd, bind, Except.bind] at h
        · simp [send_loop, hlt, hb, State.store, hpeer, bind, Except.bind] at h
      · simp only [send_loop, hlt, hb, if_true, if_false] at h
        obtain ⟨hw, hl, t, hall, htr, hcase⟩ := ih _ _ _ h
        refine ⟨by simpa using hw, by simpa using hl,
          Syscall.send peer (buf.drop sv) b :: t, ?_, by simp [htr], ?_⟩
        · intro c hc
          rcases List.mem_cons.1 hc with h | h
          · subst h; simp [Syscall.target]
          · exact hall c h
        · simpa using hcase
    · simp only [send_loop, hlt, if_false, Except.ok.injEq] at h
      subst h
      exact ⟨rfl, rfl, [], by simp, by simp, Or.inl ⟨rfl, rfl⟩⟩

/-- The send loop completes when the table accesses are in bounds and the supplied
`send` results hold a failure or cover the rest of the chunk. -/
theorem send_loop_total (fd peer : Int) (buf : List Byte) (hfd : InBounds fd)
    (hpeer : InBounds peer) :
    ∀ (sends : List Int) (s : State) (sv : Nat),
      ((∃ x ∈ sends, x < 0) ∨
        ((∀ x ∈ sends, 0 ≤ x) ∧ (buf.length : Int) ≤ sv + sends.sum)) →
      ∃ s1, send_loop fd peer buf s sv sends = .ok s1 := by
  intro sends
  induction sends with
  | nil =>
    intro s sv h
    have hge : ¬ sv < buf.length := by
      rcases h with ⟨x, hx, _⟩ | ⟨_, h⟩
      · simp at hx
      · simp at h; omega
    exact ⟨s, by simp [send_loop, hge]⟩
  | cons b rest ih =>
    intro s sv h
    by_cases hlt : sv < buf.length
    · by_cases hb : b < 0
      · exact ⟨_, send_loop_fail_step fd peer buf hfd hpeer s sv b rest hlt hb⟩
      · have h2 : (∃ x ∈ rest, x < 0) ∨
            ((∀ x ∈ rest, 0 ≤ x) ∧ (buf.length : Int) ≤ ((sv + b.toNat : Nat) : Int) + rest.sum) := by
          rcases h with ⟨x, hx, hneg⟩ | ⟨hall, hsum⟩
          · rcases List.mem_cons.1 hx with h | h
            · subst h; exact absurd hneg hb
            · exact Or.inl ⟨x, h, hneg⟩
          · refine Or.inr ⟨fun x hx => hall x (by simp [hx]), ?_⟩
            have : (b.toNat : Int) = b := Int.toNat_of_nonneg (by omega)
            simp only [List.sum_cons] at hsum
            push_cast; omega
        obtain ⟨s1, h1⟩ := ih (s.sys (.send peer (buf.drop sv) b)) (sv + b.toNat) h2
        exact ⟨s1, by simp only [send_loop, hlt, hb, if_true, if_false]; exact h1⟩
    · exact ⟨s, by simp [send_loop, hlt]⟩

/-- What a completed `read_client(fd)` did to the state: it left the table and the
interest list alone, or it only removed `fd` from the interest list (end of file with
no peer), or it tore down `fd` and its peer. Every system call is on `fd` or on the
peer. -/
theorem read_client_effect (s : State) (fd : Int) (r : RecvResult) (sends : List Int)
    (ret : Int) (s1 : State) (h : read_client s fd r sends = .ok (ret, s1)) :
    InBounds fd ∧ s1.client_waiting = s.client_waiting ∧ s1.listener = s.listener ∧
      ∃ t, (∀ c ∈ t, c.target = fd ∨ c.target = s.clients fd) ∧ s1.trace = s.trace ++ t ∧
        ((s1.clients = s.clients ∧ s1.interest = s.interest) ∨
         (¬ s.clients fd > -1 ∧ s1.clients = s.clients ∧
          (∀ c, s1.interest c = if c = fd then false else s.interest c)) ∨
         (InBounds (s.clients fd) ∧
          (∀ c, s1.clients c = if c = fd ∨ c = s.clients fd then -1 else s.clients c) ∧
          (∀ c, s1.interest c =
            if c = fd ∨ c = s.clients fd then false else s.interest c))) := by
  by_cases hfd : InBounds fd
  swap
  · simp [read_client, State.load, hfd, bind, Except.bind] at h
  refine ⟨hfd, ?_⟩
  cases r with
  | fail e =>
    rw [read_client_fail s fd e sends hfd] at h
    simp only [Except.ok.injEq, Prod.mk.injEq] at h
    obtain ⟨_, h⟩ := h
    subst h
    exact ⟨rfl, rfl, [.recv fd], by simp [Syscall.target], by simp, Or.inl ⟨rfl, rfl⟩⟩
  | bytes buf =>
    by_cases hlen : buf.length = 0
    · by_cases hp : s.clients fd > -1
      · by_cases hpb : InBounds (s.clients fd)
        · simp only [read_client, load_ok, hfd, hlen, hp, if_true, store_ok, hpb, bind,
            Except.bind, Except.ok.injEq, Prod.mk.injEq] at h
          obtain ⟨_, h⟩ := h
          subst h
          refine ⟨by simp, by simp, [.recv fd, .epoll_ctl .EPOLL_CTL_DEL fd,
            .shutdown (s.clients fd) .SHUT_RDWR, .epoll_ctl .EPOLL_CTL_DEL (s.clients fd)],
            ?_, by simp, Or.inr (Or.inr ⟨hpb, ?_, ?_⟩)⟩
          · intro c hc
            simp only [List.mem_cons, List.mem_singleton, List.not_mem_nil, or_false] at hc
            rcases hc with h | h | h | h <;> subst h <;> simp [Syscall.target]
          · intro c
            by_cases h1 : c = fd <;> by_cases h2 : c = s.clients fd <;> simp [h1, h2]
          · intro c
            by_cases h1 : c = fd <;> by_cases h2 : c = s.clients fd <;> simp [h1, h2]
        · simp [read_client, load_ok, hfd, hlen, hp, store_ok, State.store, hpb, bind,
            Except.bind] at h
      · simp only [read_client, load_ok, hfd, hlen, hp, if_true, if_false, bind,
          Except.bind, Except.ok.injEq, Prod.mk.injEq] at h
        obtain ⟨_, h⟩ := h
        subst h
        refine ⟨by simp, by simp, [.recv fd, .epoll_ctl .EPOLL_CTL_DEL fd], ?_, by simp,
          Or.inr (Or.inl ⟨hp, by simp, ?_⟩)⟩
        · intro c hc
          simp only [List.mem_cons, List.mem_singleton, List.not_mem_nil, or_false] at hc
          rcases hc with h | h <;> subst h <;> simp [Syscall.target]
        · intro c; simp
    · by_cases hp : s.clients fd = -1
      · simp only [read_client, load_ok, hfd, hlen, hp, if_true, if_false, bind,
          Except.bind, Except.ok.injEq, Prod.mk.injEq] at h
        obtain ⟨_, h⟩ := h
        subst h
        exact ⟨rfl, rfl, [.recv fd], by simp [Syscall.target], by simp, Or.inl ⟨rfl, rfl⟩⟩
      · simp only [read_client, load_ok, hfd, hlen, hp, if_false, bind, Except.bind] at h
        cases hl : send_loop fd (s.clients fd) buf (s.sys (.recv fd)) 0 sends with
        | error e => simp [hl] at h
        | ok s2 =>
          simp only [hl, Except.ok.injEq, Prod.mk.injEq] at h
          obtain ⟨_, h⟩ := h
          subst h
          obtain ⟨hw, hli, t, hall, htr, hcase⟩ := send_loop_effect fd _ buf sends _ 0 _ hl
          refine ⟨by simpa using hw, by simpa using hli, .recv fd :: t, ?_,
            by simp [htr], ?_⟩
          · intro c hc
            rcases List.mem_cons.1 hc with h | h
            · subst h; simp [Syscall.target]
            · exact hall c h
          · rcases hcase with ⟨h1, h2⟩ | ⟨_, hpb, h1, h2⟩
            · exact Or.inl ⟨by simpa using h1, by simpa using h2⟩
            · exact Or.inr (Or.inr ⟨hpb, by simpa using h1, by simpa using h2⟩)

/-- The call `read_client(fd)` completes when `fd` is in bounds, its entry is -1 or in bounds,
and the supplied `send` results are enough. -/
theorem read_client_total (s : State) (fd : Int) (r : RecvResult) (sends : List Int)
    (hfd : InBounds fd) (hp : s.clients fd = -1 ∨ InBounds (s.clients fd))
    (hs : Supplied r sends) :
    ∃ ret s1, read_client s fd r sends = .ok (ret, s1) := by
  suffices h : ∃ x, read_client s fd r sends = .ok x by
    obtain ⟨⟨ret, s1⟩, h⟩ := h
    exact ⟨ret, s1, h⟩
  cases r with
  | fail e => exact ⟨_, read_client_fail s fd e sends hfd⟩
  | bytes buf =>
    by_cases hlen : buf.length = 0
    · rcases hp with hp | hp
      · simp [read_client, load_ok, hfd, hlen, hp, bind, Except.bind]
      · have hp0 : s.clients fd > -1 := by have := hp.1; omega
        simp [read_client, load_ok, hfd, hlen, hp0, store_ok, hp, bind, Except.bind]
    · rcases hp with hp | hp
      · simp [read_client, load_ok, hfd, hlen, hp, bind, Except.bind]
      · have hp1 : s.clients fd ≠ -1 := by have := hp.1; omega
        have hs2 : (∃ x ∈ sends, x < 0) ∨
            ((∀ x ∈ sends, 0 ≤ x) ∧ (buf.length : Int) ≤ ((0 : Nat) : Int) + sends.sum) := by
          simpa [Supplied] using hs
        obtain ⟨s2, h2⟩ := send_loop_total fd _ buf hfd hp sends (s.sys (.recv fd)) 0 hs2
        simp [read_client, load_ok, hfd, hlen, hp1, h2, bind, Except.bind]

/-- The call `accept_connection` with an empty waiting slot and a descriptor below the
capacity: the descriptor becomes the waiting one. -/
theorem accept_wait (s : State) (fd : Int) (r : RecvResult) (sends : List Int)
    (hw : s.client_waiting < 0) (hfd : InBounds fd) :
    accept_connection s fd r sends = .ok (0,
      { s.sys (.accept4 fd) with
        client_waiting := fd
        clients := fun j => if j = fd then -1 else s.clients j }) := by
  have h0 : ¬ fd < 0 := by have := hfd.1; omega
  have h1 : ¬ fd > MAX_CLIENTS := by have := hfd.2; omega
  have h2 : ¬ s.client_waiting ≥ 0 := by omega
  simp only [accept_connection, sys_client_waiting, h0, h1, h2, if_false, store_ok, hfd,
    bind, Except.bind]
  rfl

/-- The call `accept_connection` with an occupied waiting slot: both entries are written, both
descriptors are added to the interest list, then the flush read runs on the waiting
descriptor and the waiting slot is emptied. -/
theorem accept_pair (s : State) (fd : Int) (r : RecvResult) (sends : List Int)
    (ret : Int) (s3 : State) (hW : InBounds s.client_waiting) (hfd : InBounds fd)
    (h : read_client
      (add_fd_to_epoll (add_fd_to_epoll
        { s.sys (.accept4 fd) with
          clients := fun j =>
            if j = fd then s.client_waiting
            else if j = s.client_waiting then fd else s.clients j }
        s.client_waiting).2 fd).2 s.client_waiting r sends = .ok (ret, s3)) :
    accept_connection s fd r sends = .ok (0, { s3 with client_waiting := -1 }) := by
  have h0 : ¬ fd < 0 := by have := hfd.1; omega
  have h1 : ¬ fd > MAX_CLIENTS := by have := hfd.2; omega
  have h2 : s.client_waiting ≥ 0 := hW.1
  simp only [accept_connection, sys_client_waiting, h0, h1, h2, if_false, if_true, store_ok,
    hfd, hW, bind, Except.bind, add_client_waiting]
  simp only [State.sys] at h ⊢
  rw [h]

/-- C1 (pairing determinism). From a state with an empty waiting slot, accepting `A`
and then a different `B`, both below the capacity, with the flush read on `A` finding
nothing to read, ends with `clients[A] = B`, `clients[B] = A`, the waiting slot
empty, and every other table entry as it was. -/
theorem pairing_determinism (s : State) (A B : Int) (r : RecvResult)
    (sendsA sendsB : List Int) (hw : s.client_waiting = -1) (hA : InBounds A)
    (hB : InBounds B) (hAB : A ≠ B) :
    ∃ s1 s2, accept_connection s A r sendsA = .ok (0, s1) ∧
      accept_connection s1 B (.fail true) sendsB = .ok (0, s2) ∧
      s1.client_waiting = A ∧
      s2.clients A = B ∧ s2.clients B = A ∧ s2.client_waiting = -1 ∧
      s2.interest A = true ∧ s2.interest B = true ∧
      (∀ c, c ≠ A → c ≠ B → s2.clients c = s.clients c) := by
  have hw0 : s.client_waiting < 0 := by omega
  refine ⟨_, _, accept_wait s A r sendsA hw0 hA,
    accept_pair _ B (.fail true) sendsB _ _ hA hB (read_client_fail _ _ _ _ hA),
    rfl, ?_, ?_, rfl, ?_, ?_, ?_⟩
  · simp [hAB]
  · simp
  · simp
  · simp
  · intro c h1 h2
    simp [h1, h2]

theorem pairing_determinism_witness :
    (init 4).client_waiting = -1 ∧ InBounds 5 ∧ InBounds 6 ∧ (5 : Int) ≠ 6 ∧
    ∃ s1 s2, accept_connection (init 4) 5 (.fail true) [] = .ok (0, s1) ∧
      accept_connection s1 6 (.fail true) [] = .ok (0, s2) ∧
      s1.client_waiting = 5 ∧
      s2.clients 5 = 6 ∧ s2.clients 6 = 5 ∧ s2.client_waiting = -1 ∧
      s2.interest 5 = true ∧ s2.interest 6 = true ∧
      (∀ c, c ≠ 5 → c ≠ 6 → s2.clients c = (init 4).clients c) :=
  ⟨rfl, by decide, by decide, by decide,
    pairing_determinism (init 4) 5 6 (.fail true) [] [] rfl (by decide) (by decide)
      (by decide)⟩

/-- A chunk read from a descriptor with a peer, every send taking at least one byte
until the chunk is taken: the chunk is delivered to the peer and the state is
unchanged except for the log of calls. -/
theorem read_client_relay (s : State) (fd : Int) (buf : List Byte) (rs rest : List Int)
    (hfd : InBounds fd) (hp : s.clients fd ≠ -1) (hbuf : buf ≠ [])
    (hrs : ∀ r ∈ rs, 1 ≤ r) (hsum : rs.sum = buf.length) :
    ∃ t, read_client s fd (.bytes buf) (rs ++ rest)
        = .ok (0, { s with trace := s.trace ++ .recv fd :: t }) ∧
      (∀ c ∈ t, ∃ off r, c = Syscall.send (s.clients fd) off r) ∧
      delivered (s.clients fd) t = buf ∧ t.length = rs.length := by
  have hlen : ¬ buf.length = 0 := by simpa using hbuf
  obtain ⟨t, ht, hall, hdel, hl⟩ :=
    send_loop_success fd (s.clients fd) buf rs (s.sys (.recv fd)) 0 rest hrs (by simpa using hsum)
  refine ⟨t, ?_, hall, by simpa using hdel, hl⟩
  simp [read_client, load_ok, hfd, hlen, hp, ht, bind, Except.bind]

/-- C2 (relay fidelity). When `fd` has a peer and `recv` gave a non-empty chunk, and
every `send` takes at least one byte until the whole chunk is taken, `read_client`
returns 0, the bytes taken by its `send` calls (all to the peer) are, concatenated in
order, exactly the chunk, and the state is as before except for the log of calls. -/
theorem relay_fidelity (s : State) (fd : Int) (buf : List Byte) (rs rest : List Int)
    (hfd : InBounds fd) (hp : s.clients fd ≠ -1) (hbuf : buf ≠ [])
    (hrs : ∀ r ∈ rs, 1 ≤ r) (hsum : rs.sum = buf.length) :
    ∃ t, read_client s fd (.bytes buf) (rs ++ rest)
        = .ok (0, { s with trace := s.trace ++ .recv fd :: t }) ∧
      (∀ c ∈ t, ∃ off r, c = Syscall.send (s.clients fd) off r) ∧
      delivered (s.clients fd) t = buf ∧ t.length = rs.length :=
  read_client_relay s fd buf rs rest hfd hp hbuf hrs hsum

theorem relay_fidelity_witness :
    InBounds 5 ∧ pair56.clients 5 ≠ -1 ∧
    ∃ t, read_client pair56 5 (.bytes [104, 105, 33]) ([2, 1] ++ [7])
        = .ok (0, { pair56 with trace := pair56.trace ++ .recv 5 :: t }) ∧
      (∀ c ∈ t, ∃ off r, c = Syscall.send (pair56.clients 5) off r) ∧
      delivered (pair56.clients 5) t = [104, 105, 33] ∧ t.length = [(2 : Int), 1].length :=
  ⟨by decide, by decide,
    relay_fidelity pair56 5 [104, 105, 33] [2, 1] [7] (by decide) (by decide) (by decide)
      (by decide) (by decide)⟩

/-- C3 (symmetric teardown). When `a` and `b` are paired and `read_client(a)` sees end
of file, `b` is shut down with `SHUT_RDWR`, both are removed from the interest list,
and both table entries are -1 afterwards; nothing else in the table changes. -/
theorem symmetric_teardown (s : State) (a b : Int) (sends : List Int)
    (ha : InBounds a) (hb : InBounds b) (hab : s.clients a = b) (_hba : s.clients b = a) :
    ∃ s', read_client s a (.bytes []) sends = .ok (0, s') ∧
      s'.clients a = -1 ∧ s'.clients b = -1 ∧
      s'.interest a = false ∧ s'.interest b = false ∧
      s'.trace = s.trace ++ [.recv a, .epoll_ctl .EPOLL_CTL_DEL a,
        .shutdown b .SHUT_RDWR, .epoll_ctl .EPOLL_CTL_DEL b] ∧
      (∀ c, c ≠ a → c ≠ b → s'.clients c = s.clients c ∧ s'.interest c = s.interest c) ∧
      s'.client_waiting = s.client_waiting :=
  read_client_eof_peer s a b sends ha hb hab

theorem symmetric_teardown_witness :
    InBounds 5 ∧ InBounds 6 ∧ pair56.clients 5 = 6 ∧ pair56.clients 6 = 5 ∧
    ∃ s', read_client pair56 5 (.bytes []) [] = .ok (0, s') ∧
      s'.clients 5 = -1 ∧ s'.clients 6 = -1 ∧
      s'.interest 5 = false ∧ s'.interest 6 = false ∧
      s'.trace = pair56.trace ++ [.recv 5, .epoll_ctl .EPOLL_CTL_DEL 5,
        .shutdown 6 .SHUT_RDWR, .epoll_ctl .EPOLL_CTL_DEL 6] ∧
      (∀ c, c ≠ 5 → c ≠ 6 →
        s'.clients c = pair56.clients c ∧ s'.interest c = pair56.interest c) ∧
      s'.client_waiting = pair56.client_waiting :=
  ⟨by decide, by decide, by decide, by decide,
    symmetric_teardown pair56 5 6 [] (by decide) (by decide) (by decide) (by decide)⟩

/-- C4 (capacity). The guard `fd > MAX_CLIENTS` lets `fd = MAX_CLIENTS` through: the
descriptor 1024 is not rejected, and `accept_connection` goes on to the write
`clients[1024]`, one past the end of the array, whether the waiting slot is empty
or occupied. -/
theorem capacity_guard_admits_1024 :
    ¬ InBounds 1024 ∧
    accept_connection (init 4) 1024 (.fail true) [] = .error (.out_of_bounds 1024) ∧
    accept_connection wait5 1024 (.fail true) [] = .error (.out_of_bounds 1024) :=
  ⟨by decide, rfl, rfl⟩

/-- C5, the claim fails: handle 5 waits alone, `read_client(5)` sees end of file, and
the waiting slot still holds 5; the descriptor 6 accepted next is paired with 5. -/
theorem abandoned_wait_keeps_slot :
    wait5.client_waiting = 5 ∧ wait5.clients 5 = -1 ∧
    (read_client wait5 5 (.bytes []) []).map (fun x => (x.1, x.2.client_waiting))
      = .ok (0, 5) ∧
    ((read_client wait5 5 (.bytes []) []).bind
        (fun x => accept_connection x.2 6 (.fail true) [])).map
      (fun x => (x.2.clients 5, x.2.clients 6, x.2.client_waiting)) = .ok (6, 5, -1) :=
  ⟨rfl, rfl, rfl, rfl⟩

/-- C5 as amended. When `W` waits alone and `read_client(W)` sees end of file, the
call returns 0 having only removed `W` from the interest list: the table is as it
was and the waiting slot still holds `W`. A descriptor `N` accepted afterwards is
paired with `W`: if the flush read on `W` would block, the result is `W` and `N`
paired; if it sees end of file again, `N` is shut down in both directions and both
entries are cleared. Either way the waiting slot is emptied only by that accept. -/
theorem abandoned_wait_stale (s : State) (W N : Int) (sends sendsN : List Int)
    (hW : InBounds W) (hw : s.client_waiting = W) (hc : s.clients W = -1)
    (hN : InBounds N) (hne : N ≠ W) :
    ∃ s1, read_client s W (.bytes []) sends = .ok (0, s1) ∧
      s1.client_waiting = W ∧ s1.clients = s.clients ∧
      s1.trace = s.trace ++ [.recv W, .epoll_ctl .EPOLL_CTL_DEL W] ∧
      (∃ s2, accept_connection s1 N (.fail true) sendsN = .ok (0, s2) ∧
        s2.clients W = N ∧ s2.clients N = W ∧ s2.client_waiting = -1) ∧
      (∃ s2, accept_connection s1 N (.bytes []) sendsN = .ok (0, s2) ∧
        s2.clients W = -1 ∧ s2.clients N = -1 ∧ s2.client_waiting = -1 ∧
        s2.trace = s1.trace ++ [.accept4 N, .epoll_ctl .EPOLL_CTL_ADD W,
          .epoll_ctl .EPOLL_CTL_ADD N, .recv W, .epoll_ctl .EPOLL_CTL_DEL W,
          .shutdown N .SHUT_RDWR, .epoll_ctl .EPOLL_CTL_DEL N]) := by
  subst hw
  have hp : ¬ s.clients s.client_waiting > -1 := by omega
  have h1 : read_client s s.client_waiting (.bytes []) sends
      = .ok (0, (remove_fd_from_epoll (s.sys (.recv s.client_waiting)) s.client_waiting).2) := by
    simp [read_client, load_ok, hW, hp, bind, Except.bind]
  have hW1 : InBounds
      (remove_fd_from_epoll (s.sys (.recv s.client_waiting)) s.client_waiting).2.client_waiting := by
    simpa using hW
  refine ⟨_, h1, by simp, by simp, by simp, ?_, ?_⟩
  · refine ⟨_, accept_pair _ N (.fail true) sendsN _ _ hW1 hN
      (read_client_fail _ _ _ _ hW1), ?_, ?_, rfl⟩
    · simp [Ne.symm hne]
    · simp
  · obtain ⟨s3, h3, e1, e2, _, _, e5, _, e7⟩ :=
      read_client_eof_peer
        (add_fd_to_epoll (add_fd_to_epoll
          { (remove_fd_from_epoll (s.sys (.recv s.client_waiting)) s.client_waiting).2.sys
              (.accept4 N) with
            clients := fun j =>
              if j = N then s.client_waiting
              else if j = s.client_waiting then N else s.clients j }
          s.client_waiting).2 N).2 s.client_waiting N sendsN hW hN (by simp [Ne.symm hne])
    refine ⟨_, accept_pair _ N (.bytes []) sendsN 0 s3 hW1 hN ?_, e1, e2, rfl, ?_⟩
    · simpa using h3
    · simpa using e5

theorem abandoned_wait_stale_witness :
    InBounds 5 ∧ wait5.client_waiting = 5 ∧ wait5.clients 5 = -1 ∧ InBounds 6 ∧
    ∃ s1, read_client wait5 5 (.bytes []) [] = .ok (0, s1) ∧
      s1.client_waiting = 5 ∧ s1.clients = wait5.clients ∧
      s1.trace = wait5.trace ++ [.recv 5, .epoll_ctl .EPOLL_CTL_DEL 5] ∧
      (∃ s2, accept_connection s1 6 (.fail true) [] = .ok (0, s2) ∧
        s2.clients 5 = 6 ∧ s2.clients 6 = 5 ∧ s2.client_waiting = -1) ∧
      (∃ s2, accept_connection s1 6 (.bytes []) [] = .ok (0, s2) ∧
        s2.clients 5 = -1 ∧ s2.clients 6 = -1 ∧ s2.client_waiting = -1 ∧
        s2.trace = s1.trace ++ [.accept4 6, .epoll_ctl .EPOLL_CTL_ADD 5,
          .epoll_ctl .EPOLL_CTL_ADD 6, .recv 5, .epoll_ctl .EPOLL_CTL_DEL 5,
          .shutdown 6 .SHUT_RDWR, .epoll_ctl .EPOLL_CTL_DEL 6]) :=
  ⟨by decide, rfl, rfl, by decide,
    abandoned_wait_stale wait5 5 6 [] [] (by decide) rfl rfl (by decide) (by decide)⟩

/-- C6, the claim fails: handles 5 and 6 are paired, the `recv` of `read_client(5)`
fails with an error other than `EAGAIN`, and the call returns -1 with both entries
still naming each other. -/
theorem hard_error_keeps_pair :
    pair56.clients 5 = 6 ∧ pair56.clients 6 = 5 ∧
    (read_client pair56 5 (.fail false) []).map
      (fun x => (x.1, x.2.clients 5, x.2.clients 6, x.2.interest 5, x.2.interest 6, x.2.trace))
      = .ok (-1, 6, 5, true, true, [.recv 5]) :=
  ⟨rfl, rfl, rfl⟩

/-- C6 as amended. A failed `recv`, with `EAGAIN` or with any other error, makes
`read_client(a)` return -1 with the table, the waiting slot and the interest list
unchanged and no system call after the `recv`: a pair `a`, `b` stays paired. -/
theorem recv_error_no_teardown (s : State) (a b : Int) (eagain : Bool) (sends : List Int)
    (ha : InBounds a) (hab : s.clients a = b) (hba : s.clients b = a) :
    ∃ s1, read_client s a (.fail eagain) sends = .ok (-1, s1) ∧
      s1.clients a = b ∧ s1.clients b = a ∧
      s1.clients = s.clients ∧ s1.client_waiting = s.client_waiting ∧
      s1.interest = s.interest ∧ s1.trace = s.trace ++ [.recv a] :=
  ⟨_, read_client_fail s a eagain sends ha, hab, hba, rfl, rfl, rfl, rfl⟩

theorem recv_error_no_teardown_witness :
    InBounds 5 ∧ pair56.clients 5 = 6 ∧ pair56.clients 6 = 5 ∧
    ∃ s1, read_client pair56 5 (.fail false) [] = .ok (-1, s1) ∧
      s1.clients 5 = 6 ∧ s1.clients 6 = 5 ∧
      s1.clients = pair56.clients ∧ s1.client_waiting = pair56.client_waiting ∧
      s1.interest = pair56.interest ∧ s1.trace = pair56.trace ++ [.recv 5] :=
  ⟨by decide, rfl, rfl, recv_error_no_teardown pair56 5 6 false [] (by decide) rfl rfl⟩

/-- C7 (send-failure teardown). When `fd` has the peer `p`, `recv` gave a chunk, the
first `good.length` sends succeed without finishing the chunk and the next one
fails, `read_client(fd)` returns 0 with both entries -1 and both descriptors out of
the interest list. After the `recv` it issues exactly the `good.length` successful
sends, the failed send, the two `EPOLL_CTL_DEL`, `shutdown(p, SHUT_WR)` and
`shutdown(fd, SHUT_RD)`, and nothing after them: no further send and no
`SHUT_RDWR`. -/
theorem send_failure_teardown (s : State) (fd : Int) (buf : List Byte)
    (good : List Int) (bad : Int) (rest : List Int)
    (hfd : InBounds fd) (hp : InBounds (s.clients fd))
    (hgood : ∀ r ∈ good, 0 ≤ r) (hsum : good.sum < buf.length) (hbad : bad < 0) :
    ∃ s1 t off, read_client s fd (.bytes buf) (good ++ bad :: rest) = .ok (0, s1) ∧
      t.length = good.length ∧
      (∀ c ∈ t, ∃ o r, c = Syscall.send (s.clients fd) o r) ∧
      s1.trace = s.trace ++ [.recv fd] ++ t ++ [.send (s.clients fd) off bad,
        .epoll_ctl .EPOLL_CTL_DEL fd, .epoll_ctl .EPOLL_CTL_DEL (s.clients fd),
        .shutdown (s.clients fd) .SHUT_WR, .shutdown fd .SHUT_RD] ∧
      s1.clients fd = -1 ∧ s1.clients (s.clients fd) = -1 ∧
      s1.interest fd = false ∧ s1.interest (s.clients fd) = false ∧
      (∀ c, c ≠ fd → c ≠ s.clients fd →
        s1.clients c = s.clients c ∧ s1.interest c = s.interest c) ∧
      s1.client_waiting = s.client_waiting := by
  have hnn : 0 ≤ good.sum := List.sum_nonneg hgood
  have hlen : ¬ buf.length = 0 := by omega
  have hp1 : s.clients fd ≠ -1 := by have := hp.1; omega
  obtain ⟨s1, t, off, h, hl, hall, htr, hcl, hint, hw, _⟩ :=
    send_loop_failure fd (s.clients fd) buf hfd hp good (s.sys (.recv fd)) 0 bad rest hgood
      (by simpa using hsum) hbad
  refine ⟨s1, t, off, ?_, hl, hall, by simpa using htr, ?_, ?_, ?_, ?_, ?_, by simpa using hw⟩
  · simp [read_client, load_ok, hfd, hlen, hp1, h, bind, Except.bind]
  · rw [hcl]; simp
  · rw [hcl]; simp
  · rw [hint]; simp
  · rw [hint]; simp
  · intro c h1 h2
    rw [hcl, hint]; simp [h1, h2]

theorem send_failure_teardown_witness :
    InBounds 5 ∧ InBounds (pair56.clients 5) ∧
    ∃ s1 t off, read_client pair56 5 (.bytes [104, 105, 33]) ([2] ++ (-1) :: [1]) = .ok (0, s1) ∧
      t.length = [(2 : Int)].length ∧
      (∀ c ∈ t, ∃ o r, c = Syscall.send (pair56.clients 5) o r) ∧
      s1.trace = pair56.trace ++ [.recv 5] ++ t ++ [.send (pair56.clients 5) off (-1),
        .epoll_ctl .EPOLL_CTL_DEL 5, .epoll_ctl .EPOLL_CTL_DEL (pair56.clients 5),
        .shutdown (pair56.clients 5) .SHUT_WR, .shutdown 5 .SHUT_RD] ∧
      s1.clients 5 = -1 ∧ s1.clients (pair56.clients 5) = -1 ∧
      s1.interest 5 = false ∧ s1.interest (pair56.clients 5) = false ∧
      (∀ c, c ≠ 5 → c ≠ pair56.clients 5 →
        s1.clients c = pair56.clients c ∧ s1.interest c = pair56.interest c) ∧
      s1.client_waiting = pair56.client_waiting :=
  ⟨by decide, by decide,
    send_failure_teardown pair56 5 [104, 105, 33] [2] (-1) [1] (by decide) (by decide)
      (by decide) (by decide) (by decide)⟩

/-- C9 (isolation). Whatever `recv` and the sends give, `read_client(fd)` completes
and every system call it issues is on `fd` or on `fd`'s peer; the table entry and the
interest-list membership of every other descriptor are unchanged, so any two other
descriptors paired with each other stay paired; the waiting slot is unchanged. -/
theorem read_client_isolation (s : State) (fd : Int) (r : RecvResult) (sends : List Int)
    (hfd : InBounds fd) (hp : s.clients fd = -1 ∨ InBounds (s.clients fd))
    (hs : Supplied r sends) :
    ∃ ret s1 t, read_client s fd r sends = .ok (ret, s1) ∧
      s1.trace = s.trace ++ t ∧
      (∀ c ∈ t, c.target = fd ∨ c.target = s.clients fd) ∧
      (∀ c, c ≠ fd → c ≠ s.clients fd →
        s1.clients c = s.clients c ∧ s1.interest c = s.interest c) ∧
      (∀ c d, c ≠ fd → c ≠ s.clients fd → d ≠ fd → d ≠ s.clients fd →
        s.clients c = d → s.clients d = c → s1.clients c = d ∧ s1.clients d = c) ∧
      s1.client_waiting = s.client_waiting := by
  obtain ⟨ret, s1, h⟩ := read_client_total s fd r sends hfd hp hs
  obtain ⟨_, hw, _, t, hall, htr, hcase⟩ := read_client_effect s fd r sends ret s1 h
  have hframe : ∀ c, c ≠ fd → c ≠ s.clients fd →
      s1.clients c = s.clients c ∧ s1.interest c = s.interest c := by
    intro c h1 h2
    rcases hcase with ⟨e1, e2⟩ | ⟨_, e1, e2⟩ | ⟨_, e1, e2⟩
    · rw [e1, e2]; exact ⟨rfl, rfl⟩
    · rw [e1, e2]; simp [h1]
    · rw [e1, e2]; simp [h1, h2]
  refine ⟨ret, s1, t, h, htr, hall, hframe, ?_, hw⟩
  intro c d hc1 hc2 hd1 hd2 hcd hdc
  rw [(hframe c hc1 hc2).1, (hframe d hd1 hd2).1]
  exact ⟨hcd, hdc⟩

theorem read_client_isolation_witness :
    InBounds 5 ∧ (two_pairs.clients 5 = -1 ∨ InBounds (two_pairs.clients 5)) ∧
    Supplied (.bytes [104, 105]) [1, -1] ∧
    ∃ ret s1 t, read_client two_pairs 5 (.bytes [104, 105]) [1, -1] = .ok (ret, s1) ∧
      s1.trace = two_pairs.trace ++ t ∧
      (∀ c ∈ t, c.target = 5 ∨ c.target = two_pairs.clients 5) ∧
      (∀ c, c ≠ 5 → c ≠ two_pairs.clients 5 →
        s1.clients c = two_pairs.clients c ∧ s1.interest c = two_pairs.interest c) ∧
      (∀ c d, c ≠ 5 → c ≠ two_pairs.clients 5 → d ≠ 5 → d ≠ two_pairs.clients 5 →
        two_pairs.clients c = d → two_pairs.clients d = c →
        s1.clients c = d ∧ s1.clients d = c) ∧
      s1.client_waiting = two_pairs.client_waiting :=
  ⟨by decide, Or.inr (by decide), Or.inl ⟨-1, by simp, by decide⟩,
    read_client_isolation two_pairs 5 (.bytes [104, 105]) [1, -1] (by decide)
      (Or.inr (by decide)) (Or.inl ⟨-1, by simp, by decide⟩)⟩

/-- C10 (flush read on pairing). When `W` waits and `N` is accepted,
`accept_connection` writes both entries, adds both descriptors to the interest list
and then issues one `recv`, on `W`; a non-empty chunk read there is sent to `N`,
whole and in order, when the sends succeed. No `recv` is issued on `N`. The result is
`W` and `N` paired and the waiting slot empty. -/
theorem flush_read_on_pairing (s : State) (N : Int) (buf : List Byte) (rs rest : List Int)
    (hW : InBounds s.client_waiting) (hN : InBounds N) (hne : N ≠ s.client_waiting)
    (hbuf : buf ≠ []) (hrs : ∀ r ∈ rs, 1 ≤ r) (hsum : rs.sum = buf.length) :
    ∃ s1 t, accept_connection s N (.bytes buf) (rs ++ rest) = .ok (0, s1) ∧
      s1.trace = s.trace ++ [.accept4 N, .epoll_ctl .EPOLL_CTL_ADD s.client_waiting,
        .epoll_ctl .EPOLL_CTL_ADD N, .recv s.client_waiting] ++ t ∧
      (∀ c ∈ t, ∃ off r, c = Syscall.send N off r) ∧
      delivered N t = buf ∧
      s1.clients s.client_waiting = N ∧ s1.clients N = s.client_waiting ∧
      s1.client_waiting = -1 ∧
      s1.interest s.client_waiting = true ∧ s1.interest N = true ∧
      (∀ c, c ≠ s.client_waiting → c ≠ N → s1.clients c = s.clients c) := by
  have hWN : s.client_waiting ≠ N := fun h => hne h.symm
  obtain ⟨t, ht, hall, hdel, _⟩ :=
    read_client_relay
      (add_fd_to_epoll (add_fd_to_epoll
        { s.sys (.accept4 N) with
          clients := fun j =>
            if j = N then s.client_waiting
            else if j = s.client_waiting then N else s.clients j }
        s.client_waiting).2 N).2 s.client_waiting buf rs rest hW
      (by have := hN.1; simp [hWN]; omega) hbuf hrs hsum
  have hpeer : (add_fd_to_epoll (add_fd_to_epoll
        { s.sys (.accept4 N) with
          clients := fun j =>
            if j = N then s.client_waiting
            else if j = s.client_waiting then N else s.clients j }
        s.client_waiting).2 N).2.clients s.client_waiting = N := by simp [hWN]
  rw [hpeer] at hall hdel
  refine ⟨_, t, accept_pair s N (.bytes buf) (rs ++ rest) _ _ hW hN ht, ?_, hall, hdel,
    ?_, ?_, rfl, ?_, ?_, ?_⟩
  · simp
  · simp [hWN]
  · simp
  · simp
  · simp
  · intro c h1 h2
    simp [h1, h2]

theorem flush_read_on_pairing_witness :
    InBounds wait5.client_waiting ∧ InBounds 6 ∧ (6 : Int) ≠ wait5.client_waiting ∧
    ∃ s1 t, accept_connection wait5 6 (.bytes [104, 105, 33]) ([1, 2] ++ []) = .ok (0, s1) ∧
      s1.trace = wait5.trace ++ [.accept4 6, .epoll_ctl .EPOLL_CTL_ADD wait5.client_waiting,
        .epoll_ctl .EPOLL_CTL_ADD 6, .recv wait5.client_waiting] ++ t ∧
      (∀ c ∈ t, ∃ off r, c = Syscall.send 6 off r) ∧
      delivered 6 t = [104, 105, 33] ∧
      s1.clients wait5.client_waiting = 6 ∧ s1.clients 6 = wait5.client_waiting ∧
      s1.client_waiting = -1 ∧
      s1.interest wait5.client_waiting = true ∧ s1.interest 6 = true ∧
      (∀ c, c ≠ wait5.client_waiting → c ≠ 6 → s1.clients c = wait5.clients c) :=
  ⟨by decide, by decide, by decide,
    flush_read_on_pairing wait5 6 [104, 105, 33] [1, 2] [] (by decide) (by decide)
      (by decide) (by decide) (by decide) (by decide)⟩

theorem init_inv (listener : Int) : Inv (init listener) := by
  refine ⟨⟨by simp [init], ?_, ?_⟩, Or.inl rfl⟩
  · intro a ha hne
    simp [init] at ha hne
    exact absurd ha hne
  · intro a _
    exact Or.inr rfl

/-- The predicate `Core` depends only on the table, the interest list and the listener. -/
theorem core_congr (s s1 : State) (hc : s1.clients = s.clients)
    (hi : s1.interest = s.interest) (hl : s1.listener = s.listener) (h : Core s) :
    Core s1 := by
  unfold Core Sym at *
  rw [hc, hi, hl]
  exact h

theorem inv_congr (s s1 : State) (hc : s1.clients = s.clients)
    (hi : s1.interest = s.interest) (hl : s1.listener = s.listener)
    (hw : s1.client_waiting = s.client_waiting) (h : Inv s) : Inv s1 := by
  refine ⟨core_congr s s1 hc hi hl h.1, ?_⟩
  rw [hw, hi, hc]
  exact h.2

/-- Tearing down a symmetric pair keeps `Core`. -/
theorem core_teardown (s s1 : State) (fd : Int) (hcore : Core s)
    (hreg : s.interest fd = true) (hne : fd ≠ s.listener)
    (hl : s1.listener = s.listener)
    (hcl : ∀ c, s1.clients c = if c = fd ∨ c = s.clients fd then -1 else s.clients c)
    (hint : ∀ c, s1.interest c = if c = fd ∨ c = s.clients fd then false else s.interest c) :
    Core s1 := by
  obtain ⟨hL, hsym, hoth⟩ := hcore
  obtain ⟨_, hp1, _, hp3, hp4⟩ := hsym fd hreg hne
  refine ⟨?_, ?_, ?_⟩
  · rw [hint, hl]
    simp [Ne.symm hne, Ne.symm hp3, hL]
  · intro a ha hna
    rw [hl] at hna
    rw [hint] at ha
    have ha1 : a ≠ fd := by
      intro h; simp [h] at ha
    have ha2 : a ≠ s.clients fd := by
      intro h; simp [h] at ha
    have ha3 : s.interest a = true := by simpa [ha1, ha2] using ha
    obtain ⟨q0, q1, q2, q3, q4⟩ := hsym a ha3 hna
    have hb1 : s.clients a ≠ fd := by
      intro h; rw [h] at q4; exact ha2 q4.symm
    have hb2 : s.clients a ≠ s.clients fd := by
      intro h; rw [h, hp4] at q4; exact ha1 q4.symm
    have e1 : s1.clients a = s.clients a := by rw [hcl]; simp [ha1, ha2]
    unfold Sym
    rw [e1, hcl (s.clients a), hint (s.clients a), hl]
    simp only [hb1, hb2, or_self, if_false]
    exact ⟨q0, q1, q2, q3, q4⟩
  · intro a ha
    rw [hcl]
    by_cases h1 : a = fd ∨ a = s.clients fd
    · simp [h1]
    · rw [hint, hl] at ha
      simp only [h1, if_false] at ha ⊢
      exact hoth a ha

/-- A completed `read_client` on a descriptor of the interest list other than the
listener keeps `Core` and adds nothing to the interest list. -/
theorem read_preserves_core (s : State) (fd : Int) (r : RecvResult) (sends : List Int)
    (ret : Int) (s1 : State) (hcore : Core s) (hreg : s.interest fd = true)
    (hne : fd ≠ s.listener) (h : read_client s fd r sends = .ok (ret, s1)) :
    Core s1 ∧ (∀ c, s1.interest c = true → s.interest c = true) := by
  obtain ⟨_, _, hl, t, _, _, hcase⟩ := read_client_effect s fd r sends ret s1 h
  rcases hcase with ⟨e1, e2⟩ | ⟨hno, _, _⟩ | ⟨_, e1, e2⟩
  · exact ⟨core_congr s s1 e1 e2 hl hcore, fun c hc => by rw [e2] at hc; exact hc⟩
  · have := (hcore.2.1 fd hreg hne).1
    omega
  · refine ⟨core_teardown s s1 fd hcore hreg hne hl e1 e2, ?_⟩
    intro c hc
    rw [e2] at hc
    by_cases h1 : c = fd ∨ c = s.clients fd
    · simp [h1] at hc
    · simpa [h1] using hc

/-- Writing the two entries of a new pair and adding both descriptors to the
interest list keeps `Core`, when neither descriptor was in the list. -/
theorem core_pair (s s1 : State) (W fd : Int) (hcore : Core s)
    (hW : s.interest W = false) (hfd : s.interest fd = false) (hne : fd ≠ W)
    (hW0 : 0 ≤ W) (hfd0 : 0 ≤ fd) (hl : s1.listener = s.listener)
    (hcl : ∀ c, s1.clients c = if c = fd then W else if c = W then fd else s.clients c)
    (hint : ∀ c, s1.interest c = if c = fd then true else if c = W then true
      else s.interest c) :
    Core s1 := by
  obtain ⟨hL, hsym, hoth⟩ := hcore
  have hWL : W ≠ s.listener := by
    intro h; rw [h, hL] at hW; exact absurd hW (by simp)
  have hfL : fd ≠ s.listener := by
    intro h; rw [h, hL] at hfd; exact absurd hfd (by simp)
  have hWf : W ≠ fd := fun h => hne h.symm
  refine ⟨?_, ?_, ?_⟩
  · rw [hint, hl]
    simp [Ne.symm hfL, Ne.symm hWL, hL]
  · intro a ha hna
    rw [hl] at hna
    unfold Sym
    by_cases h1 : a = fd
    · subst h1
      rw [hcl a, hl]
      simp only [if_true]
      rw [hcl W, hint W]
      simp [hWf, hW0, hWL]
    · by_cases h2 : a = W
      · subst h2
        rw [hcl a, hl]
        simp only [h1, if_true, if_false]
        rw [hcl fd, hint fd]
        simp [hfd0, hne, hfL]
      · rw [hint] at ha
        have ha3 : s.interest a = true := by simpa [h1, h2] using ha
        obtain ⟨q0, q1, q2, q3, q4⟩ := hsym a ha3 hna
        have hb1 : s.clients a ≠ fd := by
          intro h; rw [h, hfd] at q2; exact absurd q2 (by simp)
        have hb2 : s.clients a ≠ W := by
          intro h; rw [h, hW] at q2; exact absurd q2 (by simp)
        have e1 : s1.clients a = s.clients a := by rw [hcl]; simp [h1, h2]
        rw [e1, hcl (s.clients a), hint (s.clients a), hl]
        simp only [hb1, hb2, if_false]
        exact ⟨q0, q1, q2, q3, q4⟩
  · intro a ha
    rw [hint, hl] at ha
    by_cases h1 : a = fd
    · subst h1
      rcases ha with ha | ha
      · simp at ha
      · exact absurd ha hfL
    · by_cases h2 : a = W
      · subst h2
        rcases ha with ha | ha
        · simp at ha
        · exact absurd ha hWL
      · rw [hcl]
        simp only [h1, h2, if_false] at ha ⊢
        exact hoth a ha

/-- A completed `accept_connection` keeps the loop invariant when the accepted
descriptor is fresh. -/
theorem accept_preserves_inv (s : State) (fd : Int) (r : RecvResult) (sends : List Int)
    (ret : Int) (s1 : State) (hinv : Inv s) (hfresh : 0 ≤ fd → Fresh s fd)
    (h : accept_connection s fd r sends = .ok (ret, s1)) : Inv s1 := by
  by_cases h0 : fd < 0
  · simp only [accept_connection, h0, if_true, Except.ok.injEq, Prod.mk.injEq] at h
    obtain ⟨_, h⟩ := h
    subst h
    exact inv_congr s _ rfl rfl rfl rfl hinv
  by_cases h1 : fd > MAX_CLIENTS
  · simp only [accept_connection, h0, h1, if_true, if_false, Except.ok.injEq,
      Prod.mk.injEq] at h
    obtain ⟨_, h⟩ := h
    subst h
    exact inv_congr s _ rfl rfl rfl rfl hinv
  have hfd0 : 0 ≤ fd := by omega
  obtain ⟨hfw, hfi⟩ := hfresh hfd0
  by_cases hfd : InBounds fd
  swap
  · by_cases h2 : s.client_waiting ≥ 0
    · by_cases hW : InBounds s.client_waiting
      · simp [accept_connection, h0, h1, h2, store_ok, hW, State.store, hfd, bind,
          Except.bind] at h
      · simp [accept_connection, h0, h1, h2, State.store, hW, bind, Except.bind] at h
    · simp [accept_connection, h0, h1, h2, State.store, hfd, bind, Except.bind] at h
  by_cases h2 : s.client_waiting ≥ 0
  · by_cases hW : InBounds s.client_waiting
    swap
    · simp [accept_connection, h0, h1, h2, State.store, hW, bind, Except.bind] at h
    have hWi : s.interest s.client_waiting = false := by
      rcases hinv.2 with hw | ⟨_, hw, _⟩
      · omega
      · exact hw
    cases hr : read_client
      (add_fd_to_epoll (add_fd_to_epoll
        { s.sys (.accept4 fd) with
          clients := fun j =>
            if j = fd then s.client_waiting
            else if j = s.client_waiting then fd else s.clients j }
        s.client_waiting).2 fd).2 s.client_waiting r sends with
    | error e =>
      simp only [accept_connection, sys_client_waiting, h0, h1, h2, if_false, if_true,
        store_ok, hfd, hW, bind, Except.bind, add_client_waiting] at h
      simp only [State.sys] at hr h
      rw [hr] at h
      simp at h
    | ok x =>
      obtain ⟨ret3, s3⟩ := x
      rw [accept_pair s fd r sends ret3 s3 hW hfd hr] at h
      simp only [Except.ok.injEq, Prod.mk.injEq] at h
      obtain ⟨_, h⟩ := h
      subst h
      have hcore := core_pair s
        (add_fd_to_epoll (add_fd_to_epoll
          { s.sys (.accept4 fd) with
            clients := fun j =>
              if j = fd then s.client_waiting
              else if j = s.client_waiting then fd else s.clients j }
          s.client_waiting).2 fd).2 s.client_waiting fd hinv.1 hWi hfi hfw hW.1 hfd0
        (by simp) (by intro c; simp) (by intro c; simp)
      have hWL : s.client_waiting ≠ s.listener := by
        intro hh; rw [hh, hinv.1.1] at hWi; exact absurd hWi (by simp)
      obtain ⟨hc3, _⟩ := read_preserves_core _ s.client_waiting r sends ret3 s3 hcore
        (by simp) (by simpa using hWL) hr
      exact ⟨core_congr s3 _ rfl rfl rfl hc3, Or.inl rfl⟩
  · have hw0 : s.client_waiting < 0 := by omega
    rw [accept_wait s fd r sends hw0 hfd] at h
    simp only [Except.ok.injEq, Prod.mk.injEq] at h
    obtain ⟨_, h⟩ := h
    subst h
    obtain ⟨hL, hsym, hoth⟩ := hinv.1
    have hfL : fd ≠ s.listener := by
      intro hh; rw [hh, hL] at hfi; exact absurd hfi (by simp)
    refine ⟨⟨hL, ?_, ?_⟩, Or.inr ⟨hfd0, hfi, by simp⟩⟩
    · intro a ha hna
      have ha : s.interest a = true := ha
      have hna : a ≠ s.listener := hna
      obtain ⟨q0, q1, q2, q3, q4⟩ := hsym a ha hna
      have ha1 : a ≠ fd := by
        intro hh; rw [hh, hfi] at ha; exact absurd ha (by simp)
      have hb1 : s.clients a ≠ fd := by
        intro hh; rw [hh, hfi] at q2; exact absurd q2 (by simp)
      unfold Sym
      simp only [sys_clients, sys_interest, sys_listener, ha1, hb1, if_false]
      exact ⟨q0, q1, q2, q3, q4⟩
    · intro a ha
      have ha : s.interest a = false ∨ a = s.listener := ha
      by_cases ha1 : a = fd
      · simp [ha1]
      · simp only [ha1, if_false]
        exact hoth a ha

/-- Handling one event keeps the loop invariant. -/
theorem handle_event_preserves_inv (s s1 : State) (ev_fd accepted : Int) (r : RecvResult)
    (sends : List Int) (hinv : Inv s) (hreg : s.interest ev_fd = true)
    (hfresh : ev_fd = s.listener → 0 ≤ accepted → Fresh s accepted)
    (h : handle_event s ev_fd accepted r sends = .ok s1) : Inv s1 := by
  unfold handle_event at h
  by_cases hev : ev_fd = s.listener
  · simp only [hev, if_true] at h
    cases ha : accept_connection s accepted r sends with
    | error e => simp [ha, Except.map] at h
    | ok x =>
      obtain ⟨ret, s2⟩ := x
      simp only [ha, Except.map, Except.ok.injEq] at h
      subst h
      exact accept_preserves_inv s accepted r sends ret s2 hinv (hfresh hev) ha
  · simp only [hev, if_false] at h
    cases ha : read_client s ev_fd r sends with
    | error e => simp [ha, Except.map] at h
    | ok x =>
      obtain ⟨ret, s2⟩ := x
      simp only [ha, Except.map, Except.ok.injEq] at h
      subst h
      obtain ⟨hc, hmono⟩ := read_preserves_core s ev_fd r sends ret s2 hinv.1 hreg hev ha
      obtain ⟨_, hw, _, _, _, _, hcase⟩ := read_client_effect s ev_fd r sends ret s2 ha
      refine ⟨hc, ?_⟩
      rw [hw]
      rcases hinv.2 with h1 | ⟨h1, h2, h3⟩
      · exact Or.inl h1
      · refine Or.inr ⟨h1, ?_, ?_⟩
        · cases hi : s2.interest s.client_waiting with
          | false => rfl
          | true => rw [hmono _ hi] at h2; exact absurd h2 (by simp)
        · rcases hcase with ⟨e1, _⟩ | ⟨_, e1, _⟩ | ⟨_, e1, _⟩
          · rw [e1]; exact h3
          · rw [e1]; exact h3
          · rw [e1]
            by_cases hq : s.client_waiting = ev_fd ∨ s.client_waiting = s.clients ev_fd
            · simp [hq]
            · simpa [hq] using h3

theorem reachable_inv (listener : Int) (s : State) (h : Reachable listener s) : Inv s := by
  induction h with
  | entry => exact init_inv listener
  | step ev_fd accepted r sends _ hreg hfresh hev ih =>
    exact handle_event_preserves_inv _ _ ev_fd accepted r sends ih hreg hfresh hev

end SocketRoulette
